import Mathlib

/-!
Verification of the raylab repository's replay-buffer and MAPO-policy
behaviour against its natural-language specification.

The replay buffer itself (`raylab/utils/replay_buffer.py`) is exercised by
`tests/raylab/utils/test_replay.py` but its implementation file is not part
of the provided sources, so the buffer is modelled from the specification
(sections 3, 4 and 7 of `spec.md`).  The MAPO policy
(`raylab/agents/mapo/mapo_policy.py`) and the PyTorch utilities
(`raylab/utils/pytorch.py`) are embedded directly from their source.
-/

namespace Raylab

/-- Errors of the replay-buffer API.  Modelled from the spec: section 7
lists `InvalidCapacityError`, `DuplicateFieldError`,
`BufferAlreadyWrittenError`, `MissingFieldError`, `ShapeMismatchError`,
`IndexOutOfRangeError` and `EmptyBufferError`. -/
inductive BufferError
  | invalidCapacity
  | duplicateField
  | bufferAlreadyWritten
  | missingField
  | shapeMismatch
  | indexOutOfRange
  | emptyBuffer
  deriving DecidableEq, Repr

/-- Modelled from the spec: the Column Store of section 3 — per-field dense
arrays with a shared leading capacity dimension, a write cursor
(monotonically increasing mod capacity) and a count capped at capacity.
Rows are kept abstract (`α`), one entry per leading index. -/
structure ColumnStore (α : Type) where
  capacity : Nat
  data : List α
  cursor : Nat
  count : Nat
  deriving DecidableEq, Repr

namespace ColumnStore

variable {α : Type}

/-- Modelled from the spec: `allocate` pre-allocates `capacity` zero-initialized
entries (`zero` standing for the zero row), with cursor and count at zero. -/
def fresh (zero : α) (capacity : Nat) : ColumnStore α :=
  ⟨capacity, List.replicate capacity zero, 0, 0⟩

/-- Modelled from the spec: `allocate(capacity, fields)` fails with
`InvalidCapacityError` when a negative capacity is requested; capacity 0 is
permitted and degenerates to an always-empty store. -/
def allocate (zero : α) (capacity : Int) : Except BufferError (ColumnStore α) :=
  if capacity < 0 then .error .invalidCapacity
  else .ok (fresh zero capacity.toNat)

/-- Modelled from the spec: `write(row)` writes at the current cursor
position, advances the cursor to `(cursor + 1) mod capacity` and increments
the count up to capacity.  A capacity-0 store stays an always-empty store. -/
def write (s : ColumnStore α) (row : α) : ColumnStore α :=
  if s.capacity = 0 then s
  else
    { s with
      data := s.data.set s.cursor row
      cursor := (s.cursor + 1) % s.capacity
      count := min (s.count + 1) s.capacity }

/-- Write a whole list of rows one at a time, in input order. -/
def writeAll (s : ColumnStore α) (rows : List α) : ColumnStore α :=
  rows.foldl write s

/-- Overwrite consecutive positions of a dense array starting at `start`
(the model of a contiguous vectorized slice assignment). -/
def setSlice : List α → Nat → List α → List α
  | l, _, [] => l
  | l, i, x :: xs => setSlice (l.set i x) (i + 1) xs

/-- Modelled from the spec: `write_batch(batch)` writes multiple rows,
handling wrap-around across the capacity boundary as at most two contiguous
slices (tail-then-head), then advances the cursor by the batch length mod
capacity and increments the count up to capacity. -/
def writeBatch (s : ColumnStore α) (batch : List α) : ColumnStore α :=
  if s.capacity = 0 then s
  else
    let tailLen := min batch.length (s.capacity - s.cursor)
    { s with
      data := setSlice (setSlice s.data s.cursor (batch.take tailLen)) 0
        (batch.drop tailLen)
      cursor := (s.cursor + batch.length) % s.capacity
      count := min (s.count + batch.length) s.capacity }

/-- Modelled from the spec: `size()` returns the current count. -/
def size (s : ColumnStore α) : Nat := s.count

/-- The readable region of the store: the valid entries at positions
`[0, count)` (spec section 3 invariant). -/
def validData (s : ColumnStore α) : List α := s.data.take s.count

end ColumnStore

/-- A transition row of the column-oriented replay buffer: observation,
action, next observation, reward and done flag, with array-valued fields as
real vectors (spec section 3). -/
structure Row where
  obs : List ℝ
  actions : List ℝ
  new_obs : List ℝ
  rewards : ℝ
  dones : Bool

/-- The zero-initialized row used for pre-allocation, given the observation
and action dimensions. -/
def zeroRow (od ad : Nat) : Row :=
  ⟨List.replicate od 0, List.replicate ad 0, List.replicate od 0, 0, false⟩

/-- Modelled from the spec: the column-oriented `NumpyReplayBuffer` — a
Column Store of transition rows plus optional frozen mean/std observation
statistics and an explicit random-generator state (spec sections 3 and 5;
the rng is explicit, never ambient global state). -/
structure NumpyReplayBuffer where
  obs_dim : Nat
  act_dim : Nat
  store : ColumnStore Row
  obs_stats : Option (List ℝ × List ℝ)
  rng : Nat

namespace NumpyReplayBuffer

/-- A freshly constructed buffer of the given capacity: zero-initialized
store, no statistics computed yet, default rng state. -/
def fresh (od ad capacity : Nat) : NumpyReplayBuffer :=
  ⟨od, ad, ColumnStore.fresh (zeroRow od ad) capacity, none, 0⟩

/-- Modelled from the spec: `size()` returns the store's current count. -/
def size (b : NumpyReplayBuffer) : Nat := b.store.count

/-- Modelled from the spec: reset the explicit random-generator state (the
`seed` method exercised by the tests). -/
def seed (b : NumpyReplayBuffer) (n : Nat) : NumpyReplayBuffer :=
  { b with rng := n }

/-- A single-row `add`: one write into the circular store. -/
def addRow (b : NumpyReplayBuffer) (r : Row) : NumpyReplayBuffer :=
  { b with store := b.store.write r }

/-- Modelled from the spec: `add(batch)` normalizes input to a batch of rows
and delegates to the store's `write_batch`. -/
def add (b : NumpyReplayBuffer) (batch : List Row) : NumpyReplayBuffer :=
  { b with store := b.store.writeBatch batch }

/-- The raw (unnormalized) stored row at a position. -/
def getRow (b : NumpyReplayBuffer) (i : Nat) : Row :=
  b.store.data.getD i (zeroRow b.obs_dim b.act_dim)

/-- The observation vectors of all currently valid rows. -/
def validObs (b : NumpyReplayBuffer) : List (List ℝ) :=
  (b.store.data.take b.size).map Row.obs

/-- Modelled from the spec: the elementwise mean over all currently valid
observation rows. -/
noncomputable def obsMean (b : NumpyReplayBuffer) : List ℝ :=
  (List.range b.obs_dim).map fun j =>
    ((validObs b).map fun o => o.getD j 0).sum / (validObs b).length

/-- Modelled from the spec: the elementwise population (not sample) standard
deviation over all currently valid observation rows. -/
noncomputable def obsStd (b : NumpyReplayBuffer) : List ℝ :=
  (List.range b.obs_dim).map fun j =>
    Real.sqrt ((((validObs b).map fun o =>
      (o.getD j 0 - (obsMean b).getD j 0) ^ 2).sum) / (validObs b).length)

/-- Modelled from the spec: the fixed normalization epsilon `1e-7`. -/
noncomputable def statsEps : ℝ := 1 / 10000000

/-- Elementwise observation normalization `(raw - mean) / (std + 1e-7)`. -/
noncomputable def normalizeVec (x m s : List ℝ) : List ℝ :=
  (List.range x.length).map fun j =>
    (x.getD j 0 - m.getD j 0) / (s.getD j 0 + statsEps)

/-- Modelled from the spec: reads return rows verbatim except that the
observation and next-observation fields are normalized once statistics have
been computed. -/
noncomputable def applyStats (b : NumpyReplayBuffer) (r : Row) : Row :=
  match b.obs_stats with
  | none => r
  | some (m, s) =>
      { r with obs := normalizeVec r.obs m s, new_obs := normalizeVec r.new_obs m s }

/-- Modelled from the spec: `__getitem__` — the identified row, normalized
if statistics have been computed. -/
noncomputable def getitem (b : NumpyReplayBuffer) (i : Nat) : Row :=
  applyStats b (getRow b i)

/-- Modelled from the spec: `all_samples()` — all valid rows, through the
same normalizing read path. -/
noncomputable def all_samples (b : NumpyReplayBuffer) : List Row :=
  (List.range b.size).map (getitem b)

/-- Modelled from the spec: `update_obs_stats()` recomputes and freezes the
mean/std statistics, failing with `EmptyBufferError` on zero valid
entries. -/
noncomputable def update_obs_stats (b : NumpyReplayBuffer) :
    Except BufferError NumpyReplayBuffer :=
  if b.size = 0 then .error .emptyBuffer
  else .ok { b with obs_stats := some (obsMean b, obsStd b) }

/-- Modelled from the spec: a deterministic pseudo-random step (a linear
congruential generator standing for the explicit generator state the spec
requires for `sample`). -/
def lcg (s : Nat) : Nat := (s * 1103515245 + 12345) % 2147483648

/-- Draw `k` indices below `n` from the explicit generator state, returning
the indices and the advanced state. -/
def randIndices : Nat → Nat → Nat → List Nat × Nat
  | 0, _, s => ([], s)
  | k + 1, n, s =>
      let s1 := lcg s
      let rest := randIndices k n s1
      (s1 % n :: rest.1, rest.2)

/-- Modelled from the spec: `sample(batch_size)` draws indices uniformly
with replacement from `[0, size())` using the buffer's explicit rng state,
fails with `EmptyBufferError` when the buffer is empty, and returns the
corresponding rows through the normalizing read path; only the rng state is
advanced. -/
noncomputable def sample (b : NumpyReplayBuffer) (k : Nat) :
    Except BufferError (List Nat × List Row × NumpyReplayBuffer) :=
  if b.size = 0 then .error .emptyBuffer
  else
    let p := randIndices k b.size b.rng
    .ok (p.1, p.1.map (getitem b), { b with rng := p.2 })

end NumpyReplayBuffer

/-- Embedded from `raylab/utils/pytorch.py`, `update_polyak`:
for each positionally zipped pair of parameters, the target parameter is
scaled by `polyak` in place and then incremented by `1 - polyak` times the
source parameter; source parameters are only read.  A module is embedded as
its list of parameter tensors, each a flattened real vector; the result is
the pair (source parameters, updated target parameters). -/
noncomputable def update_polyak (from_module to_module : List (List ℝ))
    (polyak : ℝ) : List (List ℝ) × List (List ℝ) :=
  (from_module,
    ((to_module.zip from_module).map fun st =>
      List.zipWith (fun tp s => tp + (1 - polyak) * s)
        (st.1.map fun t => t * polyak) st.2)
    ++ to_module.drop from_module.length)

namespace MAPOTorchPolicy

/-- The sub-steps `MAPOTorchPolicy.learn_on_batch` can perform on a batch. -/
inductive LearnStep
  | critic_update
  | model_update
  | actor_update
  | target_update
  deriving DecidableEq, Repr

/-- The slice of the MAPO configuration that controls the `learn_on_batch`
control flow: `true_model` switches the learned dynamics model for a
supplied true one (set e.g. by `examples/MAPO/navigation_true_model.py`). -/
structure MAPOConfig where
  true_model : Bool

/-- Embedded from `raylab/agents/mapo/mapo_policy.py`, `learn_on_batch`
(lines 95-106): the sequence of sub-learner updates performed on a batch —
the critic update, then the model update unless `config["true_model"]` is
set, then the policy (actor) update, then the target-network sync. -/
def learn_on_batch_steps (config : MAPOConfig) : List LearnStep :=
  [LearnStep.critic_update]
    ++ (if config.true_model then [] else [LearnStep.model_update])
    ++ [LearnStep.actor_update, LearnStep.target_update]

/-- Elementwise difference of two flattened tensors (`a - b`). -/
noncomputable def diffTensor (a b : List ℝ) : List ℝ :=
  List.zipWith (fun x y => x - y) a b

/-- The length-`p` vector norm of a flattened tensor for a real `p`
(`tensor.norm(p)`): the `p`-th root of the sum of `p`-th powers of absolute
values. -/
noncomputable def tensorNorm (t : List ℝ) (p : ℝ) : ℝ :=
  ((t.map fun x => |x| ^ p).sum) ^ (1 / p)

/-- Python's `max` over a non-empty list (junk value 0 on the empty list,
where the source would raise). -/
def pyMax : List ℝ → ℝ
  | [] => 0
  | x :: xs => xs.foldl max x

/-- The norm order argument of `compute_total_diff_norm`: the float `inf`
or a finite real order. -/
inductive NormType
  | inf
  | fin (p : ℝ)

/-- Embedded from `raylab/agents/mapo/mapo_policy.py`,
`compute_total_diff_norm` (lines 247-258): for `inf`, the max over zipped
tensor pairs of the max absolute elementwise difference; otherwise the
accumulated sum over pairs of `norm(p) ** p`, raised to `1 / p`. -/
noncomputable def compute_total_diff_norm (atensors btensors : List (List ℝ)) :
    NormType → ℝ
  | .inf =>
      pyMax ((atensors.zip btensors).map fun ab =>
        pyMax ((diffTensor ab.1 ab.2).map abs))
  | .fin p =>
      ((atensors.zip btensors).foldl
        (fun acc ab => acc + tensorNorm (diffTensor ab.1 ab.2) p ^ p) 0) ^ (1 / p)

/-- Spec-side reading of the `inf` case: the maximum elementwise absolute
difference over all pairs, taken over the concatenation of all flattened
differences. -/
noncomputable def maxAbsDiffAll (atensors btensors : List (List ℝ)) : ℝ :=
  pyMax (((atensors.zip btensors).map fun ab =>
    (diffTensor ab.1 ab.2).map abs).flatten)

/-- Spec-side reading of the finite case: the `p`-norm of the concatenation
of all flattened differences. -/
noncomputable def concatDiffNorm (atensors btensors : List (List ℝ)) (p : ℝ) : ℝ :=
  tensorNorm (((atensors.zip btensors).map fun ab => diffTensor ab.1 ab.2).flatten) p

end MAPOTorchPolicy

namespace ColumnStore

variable {α : Type}

theorem write_capacity (s : ColumnStore α) (r : α) :
    (s.write r).capacity = s.capacity := by
  unfold write; split <;> rfl

theorem writeAll_capacity (rows : List α) (s : ColumnStore α) :
    (s.writeAll rows).capacity = s.capacity := by
  induction rows generalizing s with
  | nil => rfl
  | cons r rs ih => simpa [writeAll, List.foldl_cons, write_capacity] using
      (write_capacity s r ▸ ih (s.write r))

theorem write_count (s : ColumnStore α) (r : α) (h : 0 < s.capacity) :
    (s.write r).count = min (s.count + 1) s.capacity := by
  unfold write; rw [if_neg (by omega)]

theorem writeAll_count (rows : List α) (s : ColumnStore α)
    (hcap : 0 < s.capacity) (hcnt : s.count ≤ s.capacity) :
    (s.writeAll rows).count = min (s.count + rows.length) s.capacity := by
  induction rows generalizing s with
  | nil => simp [writeAll]; omega
  | cons r rs ih =>
      have hcap1 : 0 < (s.write r).capacity := by rwa [write_capacity]
      have hcnt1 : (s.write r).count ≤ (s.write r).capacity := by
        rw [write_count s r hcap, write_capacity]; omega
      have := ih (s.write r) hcap1 hcnt1
      rw [writeAll, List.foldl_cons, ← writeAll] at *
      rw [this, write_count s r hcap, write_capacity, List.length_cons]
      omega

theorem write_cursor (s : ColumnStore α) (r : α) (h : 0 < s.capacity) :
    (s.write r).cursor = (s.cursor + 1) % s.capacity := by
  unfold write; rw [if_neg (by omega)]

theorem writeAll_cursor (rows : List α) (s : ColumnStore α)
    (hcap : 0 < s.capacity) (hcur : s.cursor < s.capacity) :
    (s.writeAll rows).cursor = (s.cursor + rows.length) % s.capacity := by
  induction rows generalizing s with
  | nil => simp [writeAll, Nat.mod_eq_of_lt hcur]
  | cons r rs ih =>
      have hcap1 : 0 < (s.write r).capacity := by rwa [write_capacity]
      have hcur1 : (s.write r).cursor < (s.write r).capacity := by
        rw [write_cursor s r hcap, write_capacity]; exact Nat.mod_lt _ hcap
      have := ih (s.write r) hcap1 hcur1
      rw [writeAll, List.foldl_cons, ← writeAll, this, write_cursor s r hcap,
        write_capacity, List.length_cons, Nat.mod_add_mod]
      ring_nf

theorem write_data_length (s : ColumnStore α) (r : α) :
    (s.write r).data.length = s.data.length := by
  unfold write; split <;> simp

theorem writeAll_data_length (rows : List α) (s : ColumnStore α) :
    (s.writeAll rows).data.length = s.data.length := by
  induction rows generalizing s with
  | nil => rfl
  | cons r rs ih =>
      rw [writeAll, List.foldl_cons, ← writeAll, ih, write_data_length]

theorem set_formula_step (z r : α) (rs : List α) (C p : Nat)
    (hC : 0 < C) (hp : p < C) :
    (if rs.length % C = p then r
     else if p < rs.length then rs.getD (C * ((rs.length - 1 - p) / C) + p) z else z) =
    (if p < (rs ++ [r]).length then
      (rs ++ [r]).getD (C * (((rs ++ [r]).length - 1 - p) / C) + p) z
    else z) := by
  have hlen : (rs ++ [r]).length = rs.length + 1 := by simp
  rw [hlen]
  have hsub : rs.length + 1 - 1 - p = rs.length - p := by omega
  rw [hsub]
  set N := rs.length with hN
  by_cases h1 : N % C = p
  · have hpN : p ≤ N := h1 ▸ Nat.mod_le N C
    have hdvd : N - p = C * (N / C) := by
      have := Nat.div_add_mod N C
      omega
    have hidx : C * ((N - p) / C) + p = N := by
      rw [hdvd, Nat.mul_div_cancel_left _ hC]
      omega
    rw [if_pos h1, if_pos (by omega : p < N + 1), hidx]
    rw [List.getD_append_right _ _ _ _ (by omega : rs.length ≤ N)]
    simp [hN]
  · by_cases h2 : p < N
    · have hnd : ¬ C ∣ (N - p) := by
        rintro ⟨k, hk⟩
        have hNk : N = p + C * k := by omega
        have : N % C = p := by
          rw [hNk, Nat.add_mul_mod_self_left, Nat.mod_eq_of_lt hp]
        exact h1 this
      have hdiv : (N - p) / C = (N - 1 - p) / C := by
        have h3 : N - p = (N - 1 - p) + 1 := by omega
        rw [h3, Nat.succ_div, if_neg (by rw [← h3]; exact hnd)]
        omega
      have hle : C * ((N - 1 - p) / C) ≤ N - 1 - p := by
        calc C * ((N - 1 - p) / C) = (N - 1 - p) / C * C := Nat.mul_comm _ _
          _ ≤ N - 1 - p := Nat.div_mul_le_self _ _
      rw [if_neg h1, if_pos h2, if_pos (by omega : p < N + 1), hdiv]
      rw [List.getD_append _ _ _ _ (by omega : C * ((N - 1 - p) / C) + p < rs.length)]
    · have hNC : N < C := by omega
      have hmod : N % C = N := Nat.mod_eq_of_lt hNC
      rw [if_neg h1, if_neg h2, if_neg (by omega : ¬ p < N + 1)]

/-- Closed form of the store contents after any number of single-row writes
into a fresh store: position `p` holds the most recent row whose write index
was congruent to `p` modulo the capacity. -/
theorem writeAll_fresh_data (z : α) (C : Nat) (hC : 0 < C) (rows : List α) :
    ((fresh z C).writeAll rows).data =
      (List.range C).map (fun p =>
        if p < rows.length then
          rows.getD (C * ((rows.length - 1 - p) / C) + p) z
        else z) := by
  induction rows using List.reverseRecOn with
  | nil =>
      apply List.ext_getElem (by simp [writeAll, fresh])
      intro i h1 h2
      simp [writeAll, fresh]
  | append_singleton rs r ih =>
      have hfold : (fresh z C).writeAll (rs ++ [r]) = ((fresh z C).writeAll rs).write r := by
        simp [writeAll, List.foldl_append]
      set t := (fresh z C).writeAll rs with ht
      have hcapt : t.capacity = C := by rw [ht, writeAll_capacity]; rfl
      have hcurt : t.cursor = rs.length % C := by
        rw [ht, writeAll_cursor rs _ (by exact hC) (by exact hC)]
        simp [fresh]
      have hw : ((fresh z C).writeAll rs).write r =
          { t with
            data := t.data.set t.cursor r
            cursor := (t.cursor + 1) % t.capacity
            count := min (t.count + 1) t.capacity } := by
        rw [← ht]
        unfold write
        rw [if_neg (by rw [hcapt]; omega)]
      rw [hfold, hw]
      show t.data.set t.cursor r = _
      rw [hcurt, ih]
      apply List.ext_getElem (by simp)
      intro p h1 h2
      have hpC : p < C := by simpa using h2
      rw [List.getElem_set]
      simp only [List.getElem_map, List.getElem_range]
      exact set_formula_step z r rs C p hC hpC

theorem drop_eq_map_getD (l : List α) (k : Nat) (z : α) (h : k ≤ l.length) :
    l.drop k = (List.range (l.length - k)).map (fun q => l.getD (k + q) z) := by
  apply List.ext_getElem (by simp)
  intro i h1 h2
  have hik : k + i < l.length := by simp at h1; omega
  rw [List.getElem_drop]
  simp only [List.getElem_map, List.getElem_range]
  rw [List.getD_eq_getElem l z hik]

/-- Eviction correctness on a fresh store: once at least `C` rows have been
written, the stored contents are a permutation of the last `C` rows written,
so the readable set is exactly the most recently written `C` rows. -/
theorem writeAll_fresh_perm (z : α) (C : Nat) (hC : 0 < C) (rows : List α)
    (h : C ≤ rows.length) :
    ((fresh z C).writeAll rows).data.Perm (rows.drop (rows.length - C)) := by
  set N := rows.length with hN
  have hdata := writeAll_fresh_data z C hC rows
  have hform : ((fresh z C).writeAll rows).data =
      ((List.range C).map (fun p => C * ((N - 1 - p) / C) + p)).map
        (fun i => rows.getD i z) := by
    rw [hdata, List.map_map]
    apply List.map_congr_left
    intro p hp
    have hpC : p < C := by simpa using hp
    simp only [Function.comp]
    rw [if_pos (by omega : p < N)]
  have hdrop : rows.drop (N - C) =
      ((List.range C).map (fun q => N - C + q)).map (fun i => rows.getD i z) := by
    rw [drop_eq_map_getD rows (N - C) z (by omega), List.map_map]
    have hNC : N - (N - C) = C := by omega
    rw [hNC]
    apply List.map_congr_left
    intro q hq
    simp only [Function.comp]
  rw [hform, hdrop]
  apply List.Perm.map
  apply List.perm_of_nodup_nodup_toFinset_eq
  · apply (List.nodup_range C).map_on
    intro p hp q hq hpq
    have hpC : p < C := by simpa using hp
    have hqC : q < C := by simpa using hq
    have hmp : (C * ((N - 1 - p) / C) + p) % C = p := by
      rw [Nat.mul_add_mod, Nat.mod_eq_of_lt hpC]
    have hmq : (C * ((N - 1 - q) / C) + q) % C = q := by
      rw [Nat.mul_add_mod, Nat.mod_eq_of_lt hqC]
    rw [← hmp, ← hmq, hpq]
  · apply (List.nodup_range C).map_on
    intro p hp q hq hpq
    omega
  · apply Finset.ext
    intro x
    simp only [List.mem_toFinset, List.mem_map, List.mem_range]
    constructor
    · rintro ⟨p, hpC, rfl⟩
      refine ⟨C * ((N - 1 - p) / C) + p - (N - C), ?_, ?_⟩
      · have h1 := Nat.div_add_mod (N - 1 - p) C
        have h2 := Nat.mod_lt (N - 1 - p) hC
        omega
      · have h1 := Nat.div_add_mod (N - 1 - p) C
        have h2 := Nat.mod_lt (N - 1 - p) hC
        omega
    · rintro ⟨q, hqC, rfl⟩
      refine ⟨(N - C + q) % C, Nat.mod_lt _ hC, ?_⟩
      have h1 := Nat.div_add_mod (N - C + q) C
      have h2 := Nat.mod_lt (N - C + q) hC
      have hcomm : (N - C + q) / C * C = C * ((N - C + q) / C) := Nat.mul_comm _ _
      have hcomm1 : ((N - C + q) / C + 1) * C = C * ((N - C + q) / C) + C := by
        rw [Nat.add_mul, Nat.one_mul, hcomm]
      have hdiv : (N - 1 - (N - C + q) % C) / C = (N - C + q) / C := by
        apply Nat.div_eq_of_lt_le
        · omega
        · omega
      rw [hdiv]
      omega

/-- The two-slice (tail-then-head) vectorized batch write produces exactly
the state of writing the batch one row at a time, for batches no larger
than the capacity, from any in-range store state. -/
theorem writeBatch_eq_writeAll (batch : List α) : ∀ s : ColumnStore α,
    s.cursor < s.capacity → s.count ≤ s.capacity → batch.length ≤ s.capacity →
    s.writeBatch batch = s.writeAll batch := by
  induction batch with
  | nil =>
      intro s hcur hcnt _
      obtain ⟨cap, data, c, cnt⟩ := s
      simp only at hcur hcnt
      simp only [writeBatch, writeAll, List.foldl_nil]
      rw [if_neg (by omega)]
      simp only [List.length_nil, List.take_nil, List.drop_nil, setSlice]
      simp [Nat.mod_eq_of_lt hcur, Nat.min_eq_left hcnt]
  | cons x xs ih =>
      intro s hcur hcnt hlen
      have hcap : 0 < s.capacity := by omega
      have hxs : xs.length ≤ s.capacity := by
        simp only [List.length_cons] at hlen; omega
      have hs1 : (s.write x).writeBatch xs = (s.write x).writeAll xs := by
        apply ih
        · rw [write_cursor s x hcap, write_capacity]; exact Nat.mod_lt _ hcap
        · rw [write_count s x hcap, write_capacity]; omega
        · rw [write_capacity]; exact hxs
      have hstep : s.writeBatch (x :: xs) = (s.write x).writeBatch xs := by
        obtain ⟨cap, data, c, cnt⟩ := s
        simp only [List.length_cons] at hcur hcnt hlen hcap hxs
        have hw : ColumnStore.write ⟨cap, data, c, cnt⟩ x =
            ⟨cap, data.set c x, (c + 1) % cap, min (cnt + 1) cap⟩ := by
          unfold write
          rw [if_neg (by omega : ¬cap = 0)]
        rw [hw]
        simp only [writeBatch]
        rw [if_neg (by omega : ¬cap = 0), if_neg (by omega : ¬cap = 0)]
        simp only [List.length_cons, ColumnStore.mk.injEq]
        by_cases hc1 : c + 1 < cap
        · have hmod : (c + 1) % cap = c + 1 := Nat.mod_eq_of_lt hc1
          have htl : min (xs.length + 1) (cap - c) =
              min xs.length (cap - (c + 1)) + 1 := by omega
          refine ⟨trivial, ?_, ?_, ?_⟩
          · rw [hmod, htl, List.take_succ_cons, List.drop_succ_cons]
            rfl
          · rw [hmod]
            have harith : c + (xs.length + 1) = c + 1 + xs.length := by omega
            rw [harith]
          · omega
        · have hceq : c + 1 = cap := by omega
          have hmod : (c + 1) % cap = 0 := by rw [hceq, Nat.mod_self]
          have htl : min (xs.length + 1) (cap - c) = 1 := by omega
          have htl2 : min xs.length (cap - 0) = xs.length := by omega
          refine ⟨trivial, ?_, ?_, ?_⟩
          · rw [hmod, htl, htl2, List.take_succ_cons, List.take_zero,
              List.drop_succ_cons, List.drop_zero, List.take_length,
              List.drop_length]
            rfl
          · rw [hmod]
            have harith : c + (xs.length + 1) = cap + xs.length := by omega
            rw [harith, Nat.add_mod_left, Nat.zero_add]
          · omega
      rw [hstep, hs1]
      rfl

theorem write_eq_of_capacity_zero (s : ColumnStore α) (r : α)
    (h : s.capacity = 0) : s.write r = s := by
  unfold write; rw [if_pos h]

theorem writeAll_eq_of_capacity_zero (rows : List α) (s : ColumnStore α)
    (h : s.capacity = 0) : s.writeAll rows = s := by
  induction rows with
  | nil => rfl
  | cons r rs ih =>
      rw [writeAll, List.foldl_cons, ← writeAll, write_eq_of_capacity_zero s r h]
      exact ih

end ColumnStore

namespace NumpyReplayBuffer

theorem foldl_addRow_store (rows : List Row) (b : NumpyReplayBuffer) :
    (rows.foldl addRow b).store = b.store.writeAll rows := by
  induction rows generalizing b with
  | nil => rfl
  | cons r rs ih =>
      rw [List.foldl_cons, ih]
      simp only [ColumnStore.writeAll, List.foldl_cons]
      rfl

theorem randIndices_cons (k n s : Nat) : randIndices (k + 1) n s =
    (lcg s % n :: (randIndices k n (lcg s)).1, (randIndices k n (lcg s)).2) :=
  rfl

theorem randIndices_length (k : Nat) : ∀ n s : Nat,
    (randIndices k n s).1.length = k := by
  induction k with
  | zero => intro n s; rfl
  | succ k ih =>
      intro n s
      rw [randIndices_cons]
      simp only [List.length_cons]
      rw [ih]

theorem randIndices_mem_lt (k : Nat) : ∀ n s : Nat, 0 < n →
    ∀ i ∈ (randIndices k n s).1, i < n := by
  induction k with
  | zero => intro n s _ i hi; simp [randIndices] at hi
  | succ k ih =>
      intro n s hn i hi
      rw [randIndices_cons] at hi
      rcases List.mem_cons.mp hi with hi | hi
      · rw [hi]
        exact Nat.mod_lt (lcg s) hn
      · exact ih n (lcg s) hn i hi

end NumpyReplayBuffer

/-- C1: for every capacity `C > 0` and every sequence of `N` single-row
writes into a freshly allocated replay buffer, `size()` returns exactly
`min(N, C)` after the sequence. -/
theorem claim1_size_after_single_row_writes (od ad C : Nat) (hC : 0 < C)
    (rows : List Row) :
    (rows.foldl NumpyReplayBuffer.addRow (NumpyReplayBuffer.fresh od ad C)).size
      = min rows.length C := by
  rw [NumpyReplayBuffer.size, NumpyReplayBuffer.foldl_addRow_store]
  have h := ColumnStore.writeAll_count rows
    (ColumnStore.fresh (zeroRow od ad) C) (by exact hC) (by exact Nat.zero_le _)
  simpa [ColumnStore.fresh] using h

/-- Witness for C1: six writes into a capacity-4 buffer leave size 4. -/
theorem claim1_size_after_single_row_writes_witness :
    0 < 4 ∧
    ((List.replicate 6 (zeroRow 1 1)).foldl NumpyReplayBuffer.addRow
      (NumpyReplayBuffer.fresh 1 1 4)).size = 4 := by
  refine ⟨by norm_num, ?_⟩
  have h := claim1_size_after_single_row_writes 1 1 4 (by norm_num)
    (List.replicate 6 (zeroRow 1 1))
  rw [List.length_replicate] at h
  rw [h]
  rfl

/-- C2: after writing at least `C` rows into a fresh capacity-`C` store, the
readable region holds exactly the most recently written `C` rows, in some
positional order dictated by the circular cursor; the older rows are gone.
Stated for an arbitrary row type, which covers the buffer's transition rows;
the scenario with observation = row index is the witness below. -/
theorem claim2_eviction_most_recent_rows {β : Type} (z : β) (C : Nat)
    (hC : 0 < C) (rows : List β) (hlen : C ≤ rows.length) :
    ((ColumnStore.fresh z C).writeAll rows).size = C ∧
    ((ColumnStore.fresh z C).writeAll rows).validData.Perm
      (rows.drop (rows.length - C)) := by
  have hcount : ((ColumnStore.fresh z C).writeAll rows).count = C := by
    have h := ColumnStore.writeAll_count rows (ColumnStore.fresh z C) hC
      (Nat.zero_le _)
    rw [show (ColumnStore.fresh z C).count = 0 from rfl,
      show (ColumnStore.fresh z C).capacity = C from rfl, Nat.zero_add] at h
    omega
  refine ⟨hcount, ?_⟩
  have hdlen : ((ColumnStore.fresh z C).writeAll rows).data.length = C := by
    rw [ColumnStore.writeAll_data_length]; simp [ColumnStore.fresh]
  rw [ColumnStore.validData, hcount,
    List.take_of_length_le (Nat.le_of_eq hdlen)]
  exact ColumnStore.writeAll_fresh_perm z C hC rows hlen

/-- Witness for C2: capacity 4, writes 0..5; size is 4, the readable rows
are a permutation of `[2,3,4,5]`, concretely laid out as `[4,5,2,3]`. -/
theorem claim2_eviction_most_recent_rows_witness :
    0 < 4 ∧ 4 ≤ 6 ∧
    ((ColumnStore.fresh (0 : Nat) 4).writeAll [0, 1, 2, 3, 4, 5]).size = 4 ∧
    ((ColumnStore.fresh (0 : Nat) 4).writeAll [0, 1, 2, 3, 4, 5]).validData.Perm
      [2, 3, 4, 5] ∧
    ((ColumnStore.fresh (0 : Nat) 4).writeAll [0, 1, 2, 3, 4, 5]).validData
      = [4, 5, 2, 3] := by
  have h := claim2_eviction_most_recent_rows (0 : Nat) 4 (by norm_num)
    [0, 1, 2, 3, 4, 5] (by norm_num)
  exact ⟨by norm_num, by norm_num, h.1, by simpa using h.2, by decide⟩

namespace NumpyReplayBuffer

theorem size_seed (b : NumpyReplayBuffer) (n : Nat) : (b.seed n).size = b.size :=
  rfl

theorem sample_eq (b : NumpyReplayBuffer) (k : Nat) (h : ¬b.size = 0) :
    b.sample k = .ok ((randIndices k b.size b.rng).1,
      (randIndices k b.size b.rng).1.map b.getitem,
      { b with rng := (randIndices k b.size b.rng).2 }) := by
  unfold sample
  rw [if_neg h]

theorem range_map_getD {γ : Type} (n j : Nat) (f : Nat → γ) (d : γ)
    (h : j < n) : ((List.range n).map f).getD j d = f j := by
  rw [List.getD_eq_getElem _ _ (by simpa using h)]
  simp

theorem normalizeVec_length (x m s : List ℝ) :
    (normalizeVec x m s).length = x.length := by
  simp [normalizeVec]

theorem normalizeVec_getD (x m s : List ℝ) (j : Nat) (h : j < x.length) :
    (normalizeVec x m s).getD j 0 =
      (x.getD j 0 - m.getD j 0) / (s.getD j 0 + statsEps) :=
  range_map_getD x.length j _ 0 h

theorem validObs_length (b : NumpyReplayBuffer)
    (hwf : b.size ≤ b.store.data.length) : (b.validObs).length = b.size := by
  rw [validObs, List.length_map, List.length_take]
  omega

end NumpyReplayBuffer

/-- A tiny concrete buffer used by witnesses: capacity 2, two rows written,
with observations `[0]` and `[2]` (mean `[1]`, population std `[1]`). -/
noncomputable def demoBuffer : NumpyReplayBuffer :=
  ((NumpyReplayBuffer.fresh 1 1 2).addRow ⟨[0], [5], [2], 7, false⟩).addRow
    ⟨[2], [6], [4], 9, true⟩

/-- C3: starting `sample` from the same explicit rng state twice produces
identical index sequences and identical returned rows — the outcome depends
only on the buffer contents and the explicit seed, never on ambient global
random state; the drawn indices all lie in `[0, size())`. -/
theorem claim3_sample_reproducible (b : NumpyReplayBuffer) (n k : Nat)
    (h : 0 < b.size) :
    ∃ idxs rows b1,
      (b.seed n).sample k = .ok (idxs, rows, b1) ∧
      (b1.seed n).sample k = .ok (idxs, rows, b1) ∧
      idxs.length = k ∧ ∀ i ∈ idxs, i < b.size := by
  have hne : ¬(b.seed n).size = 0 := by
    rw [NumpyReplayBuffer.size_seed]; omega
  refine ⟨(NumpyReplayBuffer.randIndices k b.size n).1,
    (NumpyReplayBuffer.randIndices k b.size n).1.map ((b.seed n).getitem),
    { b.seed n with rng := (NumpyReplayBuffer.randIndices k b.size n).2 },
    ?_, ?_, ?_, ?_⟩
  · rw [NumpyReplayBuffer.sample_eq _ k hne]
    rfl
  · have hne1 : ¬(({ b.seed n with
        rng := (NumpyReplayBuffer.randIndices k b.size n).2 } :
        NumpyReplayBuffer).seed n).size = 0 := hne
    rw [NumpyReplayBuffer.sample_eq _ k hne1]
    rfl
  · exact NumpyReplayBuffer.randIndices_length k b.size n
  · exact NumpyReplayBuffer.randIndices_mem_lt k b.size n h

/-- Witness for C3: the deterministic-sampling theorem applied to a
concrete two-row buffer with seed 42 and batch size 3. -/
theorem claim3_sample_reproducible_witness :
    0 < demoBuffer.size ∧
    ∃ idxs rows b1,
      (demoBuffer.seed 42).sample 3 = .ok (idxs, rows, b1) ∧
      (b1.seed 42).sample 3 = .ok (idxs, rows, b1) ∧
      idxs.length = 3 ∧ ∀ i ∈ idxs, i < demoBuffer.size :=
  ⟨by decide, claim3_sample_reproducible demoBuffer 42 3 (by decide)⟩

/-- C4: after `update_obs_stats` on a non-empty buffer, every read through
`__getitem__` (and hence `all_samples`, which uses the same read path)
returns the observation and next-observation fields normalized elementwise
as `(raw - mean) / (std + 1e-7)`, where mean and std are the elementwise
population statistics over all currently valid observation rows, returns
every other field verbatim, and the frozen statistics are untouched by
subsequent writes (they change only on the next `update_obs_stats`). -/
theorem claim4_update_obs_stats_freezes_normalization (b : NumpyReplayBuffer)
    (hpos : 0 < b.size) (hwf : b.size ≤ b.store.data.length) :
    ∃ b1, b.update_obs_stats = .ok b1 ∧
      b1.store = b.store ∧
      b1.obs_stats = some (b.obsMean, b.obsStd) ∧
      (∀ j, j < b.obs_dim →
        b.obsMean.getD j 0 =
          (b.validObs.map fun o => o.getD j 0).sum / (b.size : ℝ) ∧
        b.obsStd.getD j 0 =
          Real.sqrt (((b.validObs.map fun o =>
            (o.getD j 0 - b.obsMean.getD j 0) ^ 2).sum) / (b.size : ℝ))) ∧
      (∀ i,
        (b1.getitem i).actions = (b.getRow i).actions ∧
        (b1.getitem i).rewards = (b.getRow i).rewards ∧
        (b1.getitem i).dones = (b.getRow i).dones ∧
        (b1.getitem i).obs.length = (b.getRow i).obs.length ∧
        (b1.getitem i).new_obs.length = (b.getRow i).new_obs.length ∧
        (∀ j, j < (b.getRow i).obs.length →
          (b1.getitem i).obs.getD j 0 =
            ((b.getRow i).obs.getD j 0 - b.obsMean.getD j 0)
              / (b.obsStd.getD j 0 + NumpyReplayBuffer.statsEps)) ∧
        (∀ j, j < (b.getRow i).new_obs.length →
          (b1.getitem i).new_obs.getD j 0 =
            ((b.getRow i).new_obs.getD j 0 - b.obsMean.getD j 0)
              / (b.obsStd.getD j 0 + NumpyReplayBuffer.statsEps))) ∧
      b1.all_samples = (List.range b.size).map b1.getitem ∧
      (∀ batch, (b1.add batch).obs_stats = some (b.obsMean, b.obsStd)) ∧
      (∀ r, (b1.addRow r).obs_stats = some (b.obsMean, b.obsStd)) := by
  have hlenR : ((b.validObs).length : ℝ) = (b.size : ℝ) := by
    rw [NumpyReplayBuffer.validObs_length b hwf]
  refine ⟨{ b with obs_stats := some (b.obsMean, b.obsStd) }, ?_, rfl, rfl,
    ?_, ?_, rfl, fun _ => rfl, fun _ => rfl⟩
  · unfold NumpyReplayBuffer.update_obs_stats
    rw [if_neg (by omega)]
  · intro j hj
    constructor
    · rw [NumpyReplayBuffer.obsMean,
        NumpyReplayBuffer.range_map_getD b.obs_dim j _ 0 hj, hlenR]
    · rw [NumpyReplayBuffer.obsStd,
        NumpyReplayBuffer.range_map_getD b.obs_dim j _ 0 hj, hlenR]
  · intro i
    have hrow : ({ b with obs_stats := some (b.obsMean, b.obsStd) } :
        NumpyReplayBuffer).getRow i = b.getRow i := rfl
    have hget : ({ b with obs_stats := some (b.obsMean, b.obsStd) } :
        NumpyReplayBuffer).getitem i =
        { b.getRow i with
          obs := NumpyReplayBuffer.normalizeVec (b.getRow i).obs
            b.obsMean b.obsStd
          new_obs := NumpyReplayBuffer.normalizeVec (b.getRow i).new_obs
            b.obsMean b.obsStd } := by
      rw [NumpyReplayBuffer.getitem, hrow]
      rfl
    rw [hget]
    refine ⟨rfl, rfl, rfl, NumpyReplayBuffer.normalizeVec_length _ _ _,
      NumpyReplayBuffer.normalizeVec_length _ _ _, ?_, ?_⟩
    · intro j hj
      exact NumpyReplayBuffer.normalizeVec_getD _ _ _ j hj
    · intro j hj
      exact NumpyReplayBuffer.normalizeVec_getD _ _ _ j hj

/-- Witness for C4: the statistics-freezing theorem applied to the concrete
two-row buffer. -/
theorem claim4_update_obs_stats_freezes_normalization_witness :
    0 < demoBuffer.size ∧ demoBuffer.size ≤ demoBuffer.store.data.length ∧
    ∃ b1, demoBuffer.update_obs_stats = .ok b1 ∧
      b1.obs_stats = some (demoBuffer.obsMean, demoBuffer.obsStd) := by
  refine ⟨by decide, by decide, ?_⟩
  obtain ⟨b1, h1, _, h3, _⟩ :=
    claim4_update_obs_stats_freezes_normalization demoBuffer (by decide)
      (by decide)
  exact ⟨b1, h1, h3⟩

/-- C5: `sample` and `update_obs_stats` fail, with `EmptyBufferError`
specifically, exactly when the buffer is empty; in the pure embedding the
error branch returns no mutated buffer, so failing calls leave the state
unchanged. -/
theorem claim5_empty_buffer_error_iff (b : NumpyReplayBuffer) (k : Nat) :
    ((∃ e, b.sample k = .error e) ↔ b.size = 0) ∧
    ((b.sample k = .error .emptyBuffer) ↔ b.size = 0) ∧
    ((∃ e, b.update_obs_stats = .error e) ↔ b.size = 0) ∧
    ((b.update_obs_stats = .error .emptyBuffer) ↔ b.size = 0) := by
  by_cases h : b.size = 0 <;>
    simp [NumpyReplayBuffer.sample, NumpyReplayBuffer.update_obs_stats, h]

/-- C6: allocating with capacity 0 succeeds and yields an always-empty
store, while `allocate` fails with `InvalidCapacityError` exactly when a
negative capacity is requested. -/
theorem claim6_allocate_capacity_checks {β : Type} (z : β) :
    (∀ c : Int, ((∃ e, ColumnStore.allocate z c = .error e) ↔ c < 0) ∧
      ((ColumnStore.allocate z c = .error .invalidCapacity) ↔ c < 0)) ∧
    ColumnStore.allocate z 0 = .ok (ColumnStore.fresh z 0) ∧
    (∀ rows : List β, ((ColumnStore.fresh z 0).writeAll rows).size = 0) := by
  refine ⟨?_, ?_, ?_⟩
  · intro c
    by_cases hc : c < 0 <;> simp [ColumnStore.allocate, hc]
  · simp [ColumnStore.allocate]
  · intro rows
    rw [ColumnStore.writeAll_eq_of_capacity_zero rows _ rfl]
    rfl

/-- C7: `write_batch` leaves the store in exactly the state produced by
writing the batch one row at a time in input order, for any in-range state
and any batch no larger than the capacity (which covers the at-most-two
contiguous slices of the tail-then-head wrap-around). -/
theorem claim7_write_batch_equals_sequential {β : Type} (s : ColumnStore β)
    (batch : List β) (hcur : s.cursor < s.capacity)
    (hcnt : s.count ≤ s.capacity) (hlen : batch.length ≤ s.capacity) :
    s.writeBatch batch = batch.foldl ColumnStore.write s :=
  ColumnStore.writeBatch_eq_writeAll batch s hcur hcnt hlen

/-- Witness for C7: capacity 10, a batch of 10 rows then a batch of 5 more;
the second batch wraps, overwriting the first 5 stored rows and leaving the
last 5 rows of the initial batch intact. -/
theorem claim7_write_batch_equals_sequential_witness :
    ((ColumnStore.fresh (0 : Nat) 10).writeBatch (List.range 10)).cursor <
      ((ColumnStore.fresh (0 : Nat) 10).writeBatch (List.range 10)).capacity ∧
    (((ColumnStore.fresh (0 : Nat) 10).writeBatch (List.range 10)).writeBatch
        [10, 11, 12, 13, 14]
      = [10, 11, 12, 13, 14].foldl ColumnStore.write
        ((ColumnStore.fresh (0 : Nat) 10).writeBatch (List.range 10))) ∧
    (((ColumnStore.fresh (0 : Nat) 10).writeBatch (List.range 10)).writeBatch
        [10, 11, 12, 13, 14]).data = [10, 11, 12, 13, 14, 5, 6, 7, 8, 9] := by
  refine ⟨by decide, ?_, by decide⟩
  exact claim7_write_batch_equals_sequential _ _ (by decide) (by decide)
    (by decide)

/-- C8 counterexample: in the `true_model` configuration (used by the
shipped true-model example), `learn_on_batch` performs no model-fitting
update, so the claim that every call performs all three sub-learner updates
is false. -/
theorem claim8_counterexample_true_model_skips_model_update :
    MAPOTorchPolicy.LearnStep.model_update ∉
      MAPOTorchPolicy.learn_on_batch_steps ⟨true⟩ := by
  decide

/-- C8 (amended): every `learn_on_batch` call performs the critic-fitting
and actor-fitting updates, and performs the model-fitting update exactly
when `config["true_model"]` is false. -/
theorem claim8_learn_on_batch_step_structure
    (config : MAPOTorchPolicy.MAPOConfig) :
    MAPOTorchPolicy.LearnStep.critic_update ∈
      MAPOTorchPolicy.learn_on_batch_steps config ∧
    MAPOTorchPolicy.LearnStep.actor_update ∈
      MAPOTorchPolicy.learn_on_batch_steps config ∧
    (MAPOTorchPolicy.LearnStep.model_update ∈
      MAPOTorchPolicy.learn_on_batch_steps config ↔
        config.true_model = false) := by
  obtain ⟨tm⟩ := config
  cases tm <;> decide

/-- C9: `update_polyak` sets each target parameter elementwise to
`polyak * previous + (1 - polyak) * source` over positionally aligned
parameter sequences, and leaves the source module's parameters unchanged. -/
theorem claim9_update_polyak_formula (f t : List (List ℝ)) (p : ℝ)
    (hlen : f.length = t.length) :
    (update_polyak f t p).1 = f ∧
    (update_polyak f t p).2.length = t.length ∧
    ∀ i j : Nat, i < t.length → j < (t.getD i []).length →
      j < (f.getD i []).length →
      ((update_polyak f t p).2.getD i []).getD j 0 =
        p * ((t.getD i []).getD j 0) + (1 - p) * ((f.getD i []).getD j 0) := by
  have h2 : (update_polyak f t p).2 =
      (t.zip f).map fun st =>
        List.zipWith (fun tp s => tp + (1 - p) * s)
          (st.1.map fun x => x * p) st.2 := by
    unfold update_polyak
    rw [hlen, List.drop_length, List.append_nil]
  refine ⟨rfl, ?_, ?_⟩
  · rw [h2, List.length_map, List.length_zip, ← hlen, Nat.min_self, hlen]
  · intro i j hi hj1 hj2
    have hfi : i < f.length := by omega
    rw [h2]
    have hmap : i < ((t.zip f).map fun st =>
        List.zipWith (fun tp s => tp + (1 - p) * s)
          (st.1.map fun x => x * p) st.2).length := by
      rw [List.length_map, List.length_zip]
      omega
    rw [List.getD_eq_getElem _ [] hmap, List.getElem_map, List.getElem_zip]
    dsimp only
    rw [List.getD_eq_getElem t [] hi] at hj1 ⊢
    rw [List.getD_eq_getElem f [] hfi] at hj2 ⊢
    have hzw : j < (List.zipWith (fun tp s => tp + (1 - p) * s)
        ((t[i]).map fun x => x * p) (f[i])).length := by
      rw [List.length_zipWith, List.length_map]
      omega
    rw [List.getD_eq_getElem _ 0 hzw, List.getElem_zipWith, List.getElem_map]
    rw [List.getD_eq_getElem _ 0 hj1, List.getD_eq_getElem _ 0 hj2]
    ring

/-- Witness for C9: one source parameter `[1]`, one target parameter `[3]`,
`polyak = 1/2`; the updated target entry is `1/2 * 3 + (1 - 1/2) * 1`. -/
theorem claim9_update_polyak_formula_witness :
    (update_polyak [[1]] [[3]] (1 / 2)).1 = [[(1 : ℝ)]] ∧
    ((update_polyak [[(1 : ℝ)]] [[3]] (1 / 2)).2.getD 0 []).getD 0 0 =
      (1 / 2) * 3 + (1 - 1 / 2) * 1 := by
  have h := claim9_update_polyak_formula [[(1 : ℝ)]] [[3]] (1 / 2) rfl
  refine ⟨h.1, ?_⟩
  have h3 := h.2.2 0 0 (by simp) (by simp) (by simp)
  simpa using h3

namespace MAPOTorchPolicy

theorem foldl_max_eq : ∀ (l : List ℝ) (x : ℝ), l ≠ [] →
    l.foldl max x = max x (pyMax l) := by
  intro l
  induction l with
  | nil => intro x hl; cases hl rfl
  | cons y ys ih =>
      intro x _
      by_cases hys : ys = []
      · subst hys; simp [pyMax]
      · rw [List.foldl_cons, ih (max x y) hys,
          show pyMax (y :: ys) = ys.foldl max y from rfl, ih y hys, max_assoc]

theorem pyMax_append (a b : List ℝ) (ha : a ≠ []) (hb : b ≠ []) :
    pyMax (a ++ b) = max (pyMax a) (pyMax b) := by
  obtain ⟨x, xs, rfl⟩ := List.exists_cons_of_ne_nil ha
  show (xs ++ b).foldl max x = _
  rw [List.foldl_append, foldl_max_eq b _ hb]
  rfl

theorem pyMax_flatten (L : List (List ℝ)) (h1 : L ≠ [])
    (h2 : ∀ l ∈ L, l ≠ []) : pyMax L.flatten = pyMax (L.map pyMax) := by
  induction L with
  | nil => cases h1 rfl
  | cons l ls ih =>
      by_cases hls : ls = []
      · subst hls
        simp [pyMax]
      · have hlne : l ≠ [] := h2 l (by simp)
        have hfl : ls.flatten ≠ [] := by
          obtain ⟨m, ms, rfl⟩ := List.exists_cons_of_ne_nil hls
          have hm : m ≠ [] := h2 m (by simp)
          intro hc
          rw [List.flatten_cons] at hc
          exact hm (List.append_eq_nil.mp hc).1
        rw [List.flatten_cons, pyMax_append l ls.flatten hlne hfl,
          ih hls (fun x hx => h2 x (List.mem_cons_of_mem _ hx)), List.map_cons,
          show pyMax (pyMax l :: ls.map pyMax)
            = (ls.map pyMax).foldl max (pyMax l) from rfl,
          foldl_max_eq _ _ (by simpa using hls)]

theorem foldl_add_eq_sum {γ : Type} (f : γ → ℝ) (l : List γ) (a : ℝ) :
    l.foldl (fun acc x => acc + f x) a = a + (l.map f).sum := by
  induction l generalizing a with
  | nil => simp
  | cons x xs ih => simp [List.foldl_cons, ih, add_assoc]

end MAPOTorchPolicy

/-- C10: `compute_total_diff_norm` at `inf` is the maximum elementwise
absolute difference over all pairs (the max over the concatenation of all
flattened differences), and at any finite nonzero order `p` it is the
`p`-norm of the concatenation of all flattened differences,
`(sum over i of norm(a_i - b_i, p) ^ p) ^ (1/p)`. -/
theorem claim10_compute_total_diff_norm (atensors btensors : List (List ℝ))
    (hne : atensors ≠ []) (hlen : atensors.length = btensors.length)
    (hpair : ∀ pr ∈ atensors.zip btensors,
      pr.1.length = pr.2.length ∧ pr.1 ≠ []) :
    MAPOTorchPolicy.compute_total_diff_norm atensors btensors .inf =
      MAPOTorchPolicy.maxAbsDiffAll atensors btensors ∧
    ∀ p : ℝ, p ≠ 0 →
      MAPOTorchPolicy.compute_total_diff_norm atensors btensors (.fin p) =
        MAPOTorchPolicy.concatDiffNorm atensors btensors p := by
  have hzlen : (atensors.zip btensors).length = atensors.length := by
    rw [List.length_zip, ← hlen, Nat.min_self]
  have hz : atensors.zip btensors ≠ [] := by
    intro hc
    rw [hc] at hzlen
    simp only [List.length_nil] at hzlen
    exact hne (List.length_eq_zero.mp hzlen.symm)
  constructor
  · have hLne : ((atensors.zip btensors).map fun ab =>
        (MAPOTorchPolicy.diffTensor ab.1 ab.2).map abs) ≠ [] := by
      intro hc
      exact hz (List.map_eq_nil_iff.mp hc)
    have hmem : ∀ x ∈ (atensors.zip btensors).map fun ab =>
        (MAPOTorchPolicy.diffTensor ab.1 ab.2).map abs, x ≠ [] := by
      intro x hx
      obtain ⟨pr, hpr, rfl⟩ := List.mem_map.mp hx
      obtain ⟨hplen, hpne⟩ := hpair pr hpr
      intro hc
      apply hpne
      have hc2 := congrArg List.length hc
      rw [List.length_map, MAPOTorchPolicy.diffTensor, List.length_zipWith,
        ← hplen, Nat.min_self, List.length_nil] at hc2
      exact List.length_eq_zero.mp hc2
    show MAPOTorchPolicy.pyMax ((atensors.zip btensors).map fun ab =>
        MAPOTorchPolicy.pyMax ((MAPOTorchPolicy.diffTensor ab.1 ab.2).map abs))
      = MAPOTorchPolicy.pyMax (((atensors.zip btensors).map fun ab =>
        (MAPOTorchPolicy.diffTensor ab.1 ab.2).map abs).flatten)
    rw [MAPOTorchPolicy.pyMax_flatten _ hLne hmem, List.map_map]
    rfl
  · intro p hp
    have hterm : ∀ pr ∈ atensors.zip btensors,
        MAPOTorchPolicy.tensorNorm (MAPOTorchPolicy.diffTensor pr.1 pr.2) p ^ p
          = ((MAPOTorchPolicy.diffTensor pr.1 pr.2).map fun x => |x| ^ p).sum := by
      intro pr _
      have hS : (0 : ℝ) ≤
          ((MAPOTorchPolicy.diffTensor pr.1 pr.2).map fun x => |x| ^ p).sum := by
        apply List.sum_nonneg
        intro x hx
        obtain ⟨y, _, rfl⟩ := List.mem_map.mp hx
        exact Real.rpow_nonneg (abs_nonneg y) p
      rw [MAPOTorchPolicy.tensorNorm, ← Real.rpow_mul hS,
        one_div_mul_cancel hp, Real.rpow_one]
    show ((atensors.zip btensors).foldl (fun acc ab =>
        acc + MAPOTorchPolicy.tensorNorm
          (MAPOTorchPolicy.diffTensor ab.1 ab.2) p ^ p) 0) ^ (1 / p)
      = MAPOTorchPolicy.concatDiffNorm atensors btensors p
    rw [MAPOTorchPolicy.foldl_add_eq_sum (fun ab =>
      MAPOTorchPolicy.tensorNorm (MAPOTorchPolicy.diffTensor ab.1 ab.2) p ^ p)
      (atensors.zip btensors) 0, zero_add, List.map_congr_left hterm]
    have hsums : ((atensors.zip btensors).map fun pr =>
        ((MAPOTorchPolicy.diffTensor pr.1 pr.2).map fun x => |x| ^ p).sum).sum
        = ((((atensors.zip btensors).map fun pr =>
          MAPOTorchPolicy.diffTensor pr.1 pr.2).flatten).map fun x => |x| ^ p).sum := by
      rw [List.map_flatten, List.map_map, List.sum_flatten, List.map_map]
      rfl
    rw [hsums]
    rfl

/-- Witness for C10: the pair lists `[[3],[4]]` and `[[0],[0]]`, with the
finite case instantiated at `p = 2`. -/
theorem claim10_compute_total_diff_norm_witness :
    MAPOTorchPolicy.compute_total_diff_norm [[3], [4]] [[0], [0]] .inf =
      MAPOTorchPolicy.maxAbsDiffAll [[3], [4]] [[0], [0]] ∧
    MAPOTorchPolicy.compute_total_diff_norm [[3], [4]] [[0], [0]] (.fin 2) =
      MAPOTorchPolicy.concatDiffNorm [[3], [4]] [[0], [0]] 2 := by
  have hpair : ∀ pr ∈ ([[(3 : ℝ)], [4]].zip [[(0 : ℝ)], [0]]),
      pr.1.length = pr.2.length ∧ pr.1 ≠ [] := by
    intro pr hpr
    have hz : ([[(3 : ℝ)], [4]].zip [[(0 : ℝ)], [0]])
        = [([3], [0]), ([4], [0])] := rfl
    rw [hz] at hpr
    rcases List.mem_cons.mp hpr with h | hpr
    · subst h; exact ⟨rfl, by simp⟩
    rcases List.mem_cons.mp hpr with h | hpr
    · subst h; exact ⟨rfl, by simp⟩
    · simp at hpr
  have h := claim10_compute_total_diff_norm [[(3 : ℝ)], [4]] [[(0 : ℝ)], [0]]
    (by simp) rfl hpair
  exact ⟨h.1, h.2 2 (by norm_num)⟩

end Raylab
